import Mathlib

/-!
Verification of the source-file dependency resolver of the C/Rust
program-pair corpus tool (`src/metadata.rs`).

Strings are modelled as `List Char` (written via `String.data` on
literals), paths as lists of path components, and the repository tree as
an explicit list of directory entries.  Fallible I/O is modelled with
`Option`; the recursive include-closure walker takes an explicit fuel
argument (the Rust recursion has no fuel; adequacy theorems below show
that the fuel used by the top-level resolver can never run out, so the
fuelled function agrees with the unbounded recursion).  Reading a
directory is platform-sensitive: `collect_source_files` approximates it
as an open failure, while `collect_source_files_u` models the Unix
behaviour, where the open succeeds and the read loop never terminates —
expressed in the fuel model as exhausting every fuel bound; the two
walkers provably agree on trees without readable directories.
-/

namespace Resolver

/-- Convenience: the character list of a string literal. -/
def cs (s : String) : List Char := s.data

/-- A file-name-like string: a list of characters. -/
abbrev Name := List Char

/-- A path, as its list of components (as produced by `WalkDir`). -/
abbrev FPath := List Name

/-- Models Rust `char::is_whitespace` for the ASCII whitespace actually
occurring in build fragments. -/
def isWs (c : Char) : Bool :=
  c == ' ' || c == '\t' || c == '\n' || c == '\r'

/-- Boolean test that `l₂` starts with `l₁` (models `str::starts_with` /
`Path::starts_with`, used for `strip_prefix`-style operations). -/
def beginsWith {α : Type} [DecidableEq α] : List α → List α → Bool
  | [], _ => true
  | _ :: _, [] => false
  | a :: as, b :: bs => if a = b then beginsWith as bs else false

/-- Boolean substring test: `needle` occurs contiguously inside `hay`
(models Rust `str::contains(&str)`). -/
def containsSeq {α : Type} [DecidableEq α] (needle : List α) : List α → Bool
  | [] => beginsWith needle []
  | a :: rest => beginsWith needle (a :: rest) || containsSeq needle rest

/-- Models Rust `str::trim_end`: remove trailing whitespace. -/
def trimEnd (l : Name) : Name :=
  (l.reverse.dropWhile isWs).reverse

/-- Models Rust `str::trim_end_matches('\\')`: remove every trailing
backslash. -/
def trimEndBackslashes (l : Name) : Name :=
  (l.reverse.dropWhile (fun c => c == '\\')).reverse

/-- Models Rust `str::split_whitespace`: maximal non-whitespace runs, in
order, with empty pieces discarded.  `cur` is the reversed current run. -/
def splitWsAux : Name → Name → List Name
  | [], cur => if cur = [] then [] else [cur.reverse]
  | c :: rest, cur =>
    if isWs c then
      if cur = [] then splitWsAux rest [] else cur.reverse :: splitWsAux rest []
    else splitWsAux rest (c :: cur)

/-- Models Rust `str::split_whitespace` on a whole line. -/
def split_whitespace (l : Name) : List Name := splitWsAux l []

/-- Splits a string on `'/'`, keeping empty pieces (the raw components of
a `Path` before normalisation). -/
def splitSlashAux : Name → Name → List Name
  | [], cur => [cur.reverse]
  | c :: rest, cur =>
    if c = '/' then cur.reverse :: splitSlashAux rest []
    else splitSlashAux rest (c :: cur)

/-- Models `Path::new(file).file_name().and_then(to_str)` from
`path_to_file_name` in `metadata.rs`: the last normal component of the
path, `none` when the path terminates in `..` or has no normal component
(for example `.`, `..`, `/`, the empty string).  The Rust code calls
`.unwrap()` on this value, so `none` models a panic of the process. -/
def path_to_file_name (file : Name) : Option Name :=
  let comps := (splitSlashAux file []).filter (fun c => !(c = [] ∨ c = ['.']))
  match comps.getLast? with
  | none => none
  | some c => if c = ['.', '.'] then none else some c

/-- Models `normalize_makefile`'s loop: `acc` is the pending continued
line.  A line is right-trimmed; if it then ends with a backslash, all
trailing backslashes are removed and the next physical line is
concatenated without separator; otherwise the logical line is emitted. -/
def normalizeAux : List Name → Name → List Name
  | [], acc => if acc = [] then [] else [acc]
  | line :: rest, acc =>
    let trimmed := trimEnd line
    if trimmed.getLast? = some '\\' then
      normalizeAux rest (acc ++ trimEndBackslashes trimmed)
    else
      (acc ++ trimmed) :: normalizeAux rest []

/-- Models `normalize_makefile` from `metadata.rs`: collapse backslash
line continuations into logical lines. -/
def normalize_makefile (lines : List Name) : List Name :=
  normalizeAux lines []

/-- An entry of the repository's directory tree, as yielded by the
`WalkDir` traversal: its (root-joined) path, whether it is a directory,
whether it can be opened for reading, and its lines of text.  The `lines`
field is meaningful only for readable regular files. -/
structure FSEntry where
  path : FPath
  isDir : Bool
  readable : Bool
  lines : List Name
deriving DecidableEq

/-- The repository tree: the list of entries the directory walk yields
(directories included), in walk order. -/
structure FS where
  entries : List FSEntry
deriving DecidableEq

/-- Models `find_file` from `metadata.rs`: every tree entry at or below
`directory` whose final name component equals `file_name` — with no check
that the entry is a regular file, so directories match too. -/
def find_file (file_name : Name) (directory : FPath) (fs : FS) : List FPath :=
  (fs.entries.filter
    (fun e => beginsWith directory e.path && e.path.getLast? == some file_name)).map
    (fun e => e.path)

/-- Models a successful full read through `read_lines` from
`metadata.rs` plus the per-line `filter_map(Result::ok)` / `flatten` done
by its callers: `some` lines for a readable regular file, `none` when no
list of lines is ever produced (a missing or unreadable entry — and, as
a terminating approximation, a directory, for which the Unix-faithful
behaviour is the never-ending discarded-error iteration modelled by
`drainErrs` and `collect_source_files_u` below). -/
def read_lines (fs : FS) (p : FPath) : Option (List Name) :=
  match fs.entries.find? (fun e => e.path == p) with
  | some e => if e.readable && !e.isDir then some e.lines else none
  | none => none

/-- Models `root.strip_prefix(repository)` in `collect_source_files`:
the path relative to the repository root, or `none` when `root` does not
lie under `repository`. -/
def relative_to (repository : FPath) (root : FPath) : Option FPath :=
  if beginsWith repository root then some (root.drop repository.length) else none

/-- Models the include-extraction in `collect_source_files`:
`line.strip_prefix("#include \"").and_then(|s| s.strip_suffix('"'))`. -/
def extractInclude (line : Name) : Option Name :=
  if beginsWith (cs "#include \"") line then
    let rest := line.drop (cs "#include \"").length
    if rest.getLast? = some '"' then some rest.dropLast else none
  else none

/-- Models `get_paths_from_line`: split the logical line on whitespace,
skip the variable name and the `=` sign, take each token's base name
(where the Rust code unwraps — `none` here models the panic), and locate
every file with that base name in the repository. -/
def get_paths_from_line (line : Name) (repository : FPath) (fs : FS) :
    Option (List FPath) :=
  (((split_whitespace line).drop 2).mapM path_to_file_name).map
    (fun names => names.flatMap (fun n => find_file n repository fs))

/-- The part of `get_source_files_from_makefile` that runs after the
fragment has been read: normalise continuations, keep logical lines
containing the substring `<program_name>_SOURCES`, and gather the paths
of every candidate.  `none` models a panic inside `get_paths_from_line`. -/
def source_files_from_lines (fs : FS) (repository : FPath) (program_name : Name)
    (lines : List Name) : Option (List FPath) :=
  let sources_key := program_name ++ cs "_SOURCES"
  (((normalize_makefile lines).filter (fun line => containsSeq sources_key line)).mapM
    (fun line => get_paths_from_line line repository fs)).map List.flatten

/-- Models `get_source_files_from_makefile`: an unreadable fragment is
logged and yields the empty list; otherwise the fragment's lines are
processed by `source_files_from_lines`. -/
def get_source_files_from_makefile (fs : FS) (repository : FPath)
    (makefile_path : FPath) (program_name : Name) : Option (List FPath) :=
  match read_lines fs makefile_path with
  | none => some []
  | some lines => source_files_from_lines fs repository program_name lines

/-- Error outcomes of the closure walk.  `fuelOut` is an artefact of the
fuel-based embedding; the adequacy theorems below show the fuel passed by
`get_c_source_files` never runs out. -/
inductive WalkErr : Type where
  | fuelOut : WalkErr
  | relPathFailed : WalkErr
  | openFailed : FPath → WalkErr
deriving DecidableEq

/-- Sequential processing of a list of pending files with an
error-short-circuiting accumulator: the shape of every `for` loop with
`?` inside `get_c_source_files` / `collect_source_files`. -/
def exceptFold (f : List FPath → FPath → Except WalkErr (List FPath)) :
    List FPath → List FPath → Except WalkErr (List FPath)
  | v, [] => .ok v
  | v, p :: ps =>
    match f v p with
    | .error e => .error e
    | .ok w => exceptFold f w ps

/-- Models `collect_source_files` from `metadata.rs` with explicit fuel:
compute the path relative to the repository root (`?` on failure), return
at once when it was already visited, insert it, then for each line's
quoted include and each file the locator finds for it, recurse.  The
visited set is modelled as a list to which new relative paths are
prepended.  Directory entries are approximated as unopenable here; the
Unix-faithful directory semantics (the open succeeds and the iteration
diverges) is `collect_source_files_u` below, and `collect_u_agrees`
shows the two walkers coincide on trees without readable directories. -/
def collect_source_files (fs : FS) (repository : FPath) :
    Nat → List FPath → FPath → Except WalkErr (List FPath)
  | 0, _, _ => .error .fuelOut
  | fuel + 1, visited, root =>
    match relative_to repository root with
    | none => .error .relPathFailed
    | some rel =>
      if rel ∈ visited then .ok visited
      else
        match read_lines fs root with
        | none => .error (.openFailed root)
        | some ls =>
          exceptFold (fun v p => collect_source_files fs repository fuel v p)
            (rel :: visited)
            ((ls.filterMap extractInclude).flatMap (fun n => find_file n repository fs))

/-- Models pulling the line iterator of an opened directory on Unix:
every `Lines::next` call returns `Some(Err(EISDIR))`, `.flatten()`
discards the error and pulls again, and the loop never produces a line
nor terminates.  Each pull consumes one unit of fuel, so the loop drains
whatever fuel remains. -/
def drainErrs : Nat → Except WalkErr (List FPath)
  | 0 => .error .fuelOut
  | n + 1 => drainErrs n

/-- Models `collect_source_files` with the Unix semantics of reading a
directory: `File::open` fails only for a missing or unreadable entry (the
`?` propagates `.openFailed`); on a readable directory the open succeeds,
and the `for line in read_lines(root)?.flatten()` loop then discards an
endless stream of read errors without ever terminating (`drainErrs`);
on a readable regular file it walks the file's lines exactly like
`collect_source_files`. -/
def collect_source_files_u (fs : FS) (repository : FPath) :
    Nat → List FPath → FPath → Except WalkErr (List FPath)
  | 0, _, _ => .error .fuelOut
  | fuel + 1, visited, root =>
    match relative_to repository root with
    | none => .error .relPathFailed
    | some rel =>
      if rel ∈ visited then .ok visited
      else
        match fs.entries.find? (fun e => e.path == root) with
        | none => .error (.openFailed root)
        | some e =>
          if e.readable then
            if e.isDir then drainErrs fuel
            else
              exceptFold (fun v p => collect_source_files_u fs repository fuel v p)
                (rel :: visited)
                ((e.lines.filterMap extractInclude).flatMap
                  (fun n => find_file n repository fs))
          else .error (.openFailed root)

/-- The three recognised build-fragment names of `get_c_source_files`. -/
def fragmentNames : List Name := [cs "Makefile.am", cs "local.mk", cs "Makemodule.am"]

/-- Fuel that the adequacy theorems show is always sufficient for the
closure walk: one more than the number of tree entries. -/
def defaultFuel (fs : FS) : Nat := fs.entries.length + 1

/-- The loop of `get_c_source_files` over the located fragments: extract
each fragment's seed sources (outer `none` models a panic inside the
extractor) and run the closure walker over them against the shared
visited set, propagating walker errors. -/
def run_makefiles (fs : FS) (repository : FPath) (program_name : Name) (fuel : Nat) :
    List FPath → List FPath → Option (Except WalkErr (List FPath))
  | [], visited => some (.ok visited)
  | mk :: mks, visited =>
    match get_source_files_from_makefile fs repository mk program_name with
    | none => none
    | some seeds =>
      match exceptFold (fun v p => collect_source_files fs repository fuel v p)
          visited seeds with
      | .error e => some (.error e)
      | .ok v => run_makefiles fs repository program_name fuel mks v

/-- Models `get_c_source_files`: locate the fragments with the three
recognised names, then fold `run_makefiles` from the empty visited set.
The outer `Option` is `none` when the process panics; `some (.error e)`
models an `Err` return; `some (.ok v)` a successful resolution. -/
def get_c_source_files (fs : FS) (program_name : Name) (repository : FPath) :
    Option (Except WalkErr (List FPath)) :=
  run_makefiles fs repository program_name (defaultFuel fs)
    (fragmentNames.flatMap (fun n => find_file n repository fs)) []

deriving instance DecidableEq for Except

/-- All relative paths of tree entries: the universe the visited set can
draw from.  Used only for the fuel-adequacy argument. -/
def entryRels (fs : FS) (repository : FPath) : List FPath :=
  fs.entries.filterMap (fun e => relative_to repository e.path)

/-- Number of entry-relative paths not yet visited: the decreasing
measure of the closure walk. -/
def unvisited (fs : FS) (repository : FPath) (v : List FPath) : Nat :=
  ((entryRels fs repository).toFinset \ v.toFinset).card

/-- The spec's §8 scenario repository: `Makefile.am` declares
`diff_SOURCES = diff.c util.c`, `diff.c` includes `util.h`. -/
def fsC1 : FS := ⟨[
  ⟨[cs "r"], true, true, []⟩,
  ⟨[cs "r", cs "Makefile.am"], false, true, [cs "diff_SOURCES = diff.c util.c"]⟩,
  ⟨[cs "r", cs "diff.c"], false, true, [cs "#include \"util.h\""]⟩,
  ⟨[cs "r", cs "util.c"], false, true, []⟩,
  ⟨[cs "r", cs "util.h"], false, true, []⟩]⟩

/-- The spec's substring-false-positive scenario: the fragment declares
both `diff_SOURCES` and `cmp_diff_SOURCES`. -/
def fsC4 : FS := ⟨[
  ⟨[cs "r"], true, true, []⟩,
  ⟨[cs "r", cs "Makefile.am"], false, true,
    [cs "diff_SOURCES = diff.c", cs "cmp_diff_SOURCES = other.c"]⟩,
  ⟨[cs "r", cs "diff.c"], false, true, []⟩,
  ⟨[cs "r", cs "other.c"], false, true, []⟩]⟩

/-- A repository whose fragment contains the degenerate token `..` after
the first two tokens of a matching line. -/
def fsC3 : FS := ⟨[
  ⟨[cs "r"], true, true, []⟩,
  ⟨[cs "r", cs "Makefile.am"], false, true, [cs "foo_SOURCES = a.c .."]⟩,
  ⟨[cs "r", cs "a.c"], false, true, []⟩]⟩

/-- A two-file include cycle: `a.c` includes `b.h`, `b.h` includes
`a.c`. -/
def fsC2w : FS := ⟨[
  ⟨[cs "r"], true, true, []⟩,
  ⟨[cs "r", cs "a.c"], false, true, [cs "#include \"b.h\""]⟩,
  ⟨[cs "r", cs "b.h"], false, true, [cs "#include \"a.c\""]⟩]⟩

/-- A repository whose declared seed source `bad.c` exists in the walk
but cannot be opened for reading. -/
def fsC6w : FS := ⟨[
  ⟨[cs "r"], true, true, []⟩,
  ⟨[cs "r", cs "Makefile.am"], false, true, [cs "p_SOURCES = bad.c"]⟩,
  ⟨[cs "r", cs "bad.c"], false, false, []⟩]⟩

/-- A repository whose first located fragment (`Makefile.am`) is
unreadable while a later one (`local.mk`) declares a source. -/
def fsC7w : FS := ⟨[
  ⟨[cs "r"], true, true, []⟩,
  ⟨[cs "r", cs "Makefile.am"], false, false, []⟩,
  ⟨[cs "r", cs "local.mk"], false, true, [cs "p_SOURCES = x.c"]⟩,
  ⟨[cs "r", cs "x.c"], false, true, []⟩]⟩

/-- A repository containing a directory named `util.h`, the same name an
include directive refers to. -/
def fsC10w : FS := ⟨[
  ⟨[cs "r"], true, true, []⟩,
  ⟨[cs "r", cs "Makefile.am"], false, true, [cs "p_SOURCES = main.c"]⟩,
  ⟨[cs "r", cs "main.c"], false, true, [cs "#include \"util.h\""]⟩,
  ⟨[cs "r", cs "util.h"], true, true, []⟩]⟩

/-- The logical line produced by joining `foo_SOURCES = a.c \` with
`    b.c c.c`. -/
def lineJoined : Name := cs "foo_SOURCES = a.c     b.c c.c"

/-- The single-physical-line variant of the same declaration. -/
def lineSingle : Name := cs "foo_SOURCES = a.c b.c c.c"

theorem beginsWith_iff {α : Type} [DecidableEq α] (l₁ l₂ : List α) :
    beginsWith l₁ l₂ = true ↔ ∃ t, l₂ = l₁ ++ t := by
  induction l₁ generalizing l₂ with
  | nil => simp [beginsWith]
  | cons a as ih =>
    cases l₂ with
    | nil =>
      simp only [beginsWith, List.cons_append]
      constructor
      · intro h; cases h
      · rintro ⟨t, ht⟩; cases ht
    | cons b bs =>
      simp only [beginsWith]
      by_cases hab : a = b
      · subst hab
        simp [ih]
      · simp only [if_neg hab]
        constructor
        · intro h; cases h
        · rintro ⟨t, ht⟩
          rw [List.cons_append] at ht
          exact absurd (List.head_eq_of_cons_eq ht).symm hab

theorem beginsWith_append {α : Type} [DecidableEq α] (l t : List α) :
    beginsWith l (l ++ t) = true :=
  (beginsWith_iff l (l ++ t)).mpr ⟨t, rfl⟩

theorem containsSeq_iff {α : Type} [DecidableEq α] (x l : List α) :
    containsSeq x l = true ↔ ∃ u v, l = u ++ x ++ v := by
  induction l with
  | nil =>
    simp only [containsSeq, beginsWith_iff]
    constructor
    · rintro ⟨t, ht⟩
      exact ⟨[], [], by simp_all⟩
    · rintro ⟨u, v, huv⟩
      have hlen := congrArg List.length huv
      simp only [List.length_nil, List.length_append] at hlen
      have hx : x.length = 0 := by omega
      exact ⟨[], by simp [List.eq_nil_of_length_eq_zero hx]⟩
  | cons a rest ih =>
    simp only [containsSeq, Bool.or_eq_true, beginsWith_iff, ih]
    constructor
    · rintro (⟨t, ht⟩ | ⟨u, v, huv⟩)
      · exact ⟨[], t, by simp [ht]⟩
      · exact ⟨a :: u, v, by simp [huv]⟩
    · rintro ⟨u, v, huv⟩
      cases u with
      | nil => exact Or.inl ⟨v, by simpa using huv⟩
      | cons u0 us =>
        rw [List.cons_append, List.cons_append] at huv
        exact Or.inr ⟨us, v, List.tail_eq_of_cons_eq huv⟩

theorem exceptFold_ok_grows (f : List FPath → FPath → Except WalkErr (List FPath))
    (hf : ∀ v p w, f v p = .ok w → ∃ pre, w = pre ++ v) :
    ∀ l v w, exceptFold f v l = .ok w → ∃ pre, w = pre ++ v := by
  intro l
  induction l with
  | nil =>
    intro v w h
    simp only [exceptFold] at h
    exact ⟨[], by simpa using (Except.ok.inj h).symm⟩
  | cons p ps ih =>
    intro v w h
    simp only [exceptFold] at h
    cases hc : f v p with
    | error e => rw [hc] at h; cases h
    | ok v1 =>
      rw [hc] at h
      obtain ⟨pre1, rfl⟩ := hf v p v1 hc
      obtain ⟨pre2, rfl⟩ := ih _ _ h
      exact ⟨pre2 ++ pre1, by simp⟩

theorem exceptFold_ok_pres (P : List FPath → Prop)
    (f : List FPath → FPath → Except WalkErr (List FPath))
    (hf : ∀ v p w, P v → f v p = .ok w → P w) :
    ∀ l v w, P v → exceptFold f v l = .ok w → P w := by
  intro l
  induction l with
  | nil =>
    intro v w hP h
    simp only [exceptFold] at h
    exact (Except.ok.inj h) ▸ hP
  | cons p ps ih =>
    intro v w hP h
    simp only [exceptFold] at h
    cases hc : f v p with
    | error e => rw [hc] at h; cases h
    | ok v1 =>
      rw [hc] at h
      exact ih v1 w (hf v p v1 hP hc) h

theorem exceptFold_error_src (P : List FPath → Prop)
    (f : List FPath → FPath → Except WalkErr (List FPath))
    (hf : ∀ v p w, P v → f v p = .ok w → P w) :
    ∀ l v e, P v → exceptFold f v l = .error e →
      ∃ v2 p, P v2 ∧ p ∈ l ∧ f v2 p = .error e := by
  intro l
  induction l with
  | nil =>
    intro v e hP h
    simp only [exceptFold] at h
    cases h
  | cons p ps ih =>
    intro v e hP h
    simp only [exceptFold] at h
    cases hc : f v p with
    | error e1 =>
      rw [hc] at h
      exact ⟨v, p, hP, List.mem_cons_self p ps, by rw [hc, Except.error.inj h]⟩
    | ok v1 =>
      rw [hc] at h
      obtain ⟨v2, q, hq⟩ := ih v1 e (hf v p v1 hP hc) h
      exact ⟨v2, q, hq.1, List.mem_cons_of_mem p hq.2.1, hq.2.2⟩

theorem collect_step_relFail (fs : FS) (repository : FPath) (fuel : Nat)
    (v : List FPath) (root : FPath) (h : relative_to repository root = none) :
    collect_source_files fs repository (fuel + 1) v root = .error .relPathFailed := by
  simp only [collect_source_files, h]

theorem collect_step_visited (fs : FS) (repository : FPath) (fuel : Nat)
    (v : List FPath) (root rel : FPath) (h : relative_to repository root = some rel)
    (hv : rel ∈ v) :
    collect_source_files fs repository (fuel + 1) v root = .ok v := by
  simp only [collect_source_files, h, if_pos hv]

theorem collect_step_unreadable (fs : FS) (repository : FPath) (fuel : Nat)
    (v : List FPath) (root rel : FPath) (h : relative_to repository root = some rel)
    (hv : rel ∉ v) (hr : read_lines fs root = none) :
    collect_source_files fs repository (fuel + 1) v root = .error (.openFailed root) := by
  simp only [collect_source_files, h, if_neg hv, hr]

theorem collect_step_go (fs : FS) (repository : FPath) (fuel : Nat)
    (v : List FPath) (root rel : FPath) (ls : List Name)
    (h : relative_to repository root = some rel) (hv : rel ∉ v)
    (hr : read_lines fs root = some ls) :
    collect_source_files fs repository (fuel + 1) v root =
      exceptFold (fun w p => collect_source_files fs repository fuel w p)
        (rel :: v)
        ((ls.filterMap extractInclude).flatMap (fun n => find_file n repository fs)) := by
  simp only [collect_source_files, h, if_neg hv, hr]

theorem collect_grows (fs : FS) (repository : FPath) :
    ∀ fuel v root w, collect_source_files fs repository fuel v root = .ok w →
      ∃ pre, w = pre ++ v := by
  intro fuel
  induction fuel with
  | zero => intro v root w h; cases h
  | succ fuel ih =>
    intro v root w h
    cases hrel : relative_to repository root with
    | none => rw [collect_step_relFail fs repository fuel v root hrel] at h; cases h
    | some rel =>
      by_cases hv : rel ∈ v
      · rw [collect_step_visited fs repository fuel v root rel hrel hv] at h
        exact ⟨[], by simpa using (Except.ok.inj h).symm⟩
      · cases hr : read_lines fs root with
        | none =>
          rw [collect_step_unreadable fs repository fuel v root rel hrel hv hr] at h
          cases h
        | some ls =>
          rw [collect_step_go fs repository fuel v root rel ls hrel hv hr] at h
          obtain ⟨pre, rfl⟩ := exceptFold_ok_grows _ (fun a b c => ih a b c) _ _ _ h
          exact ⟨pre ++ [rel], by simp⟩

theorem collect_nodup (fs : FS) (repository : FPath) :
    ∀ fuel v root w, v.Nodup →
      collect_source_files fs repository fuel v root = .ok w → w.Nodup := by
  intro fuel
  induction fuel with
  | zero => intro v root w _ h; cases h
  | succ fuel ih =>
    intro v root w hnd h
    cases hrel : relative_to repository root with
    | none => rw [collect_step_relFail fs repository fuel v root hrel] at h; cases h
    | some rel =>
      by_cases hv : rel ∈ v
      · rw [collect_step_visited fs repository fuel v root rel hrel hv] at h
        exact (Except.ok.inj h) ▸ hnd
      · cases hr : read_lines fs root with
        | none =>
          rw [collect_step_unreadable fs repository fuel v root rel hrel hv hr] at h
          cases h
        | some ls =>
          rw [collect_step_go fs repository fuel v root rel ls hrel hv hr] at h
          exact exceptFold_ok_pres List.Nodup _ (fun a b c hP hc => ih a b c hP hc)
            _ _ _ (List.nodup_cons.mpr ⟨hv, hnd⟩) h

theorem mem_of_grows {v w : List FPath} (h : ∃ pre, w = pre ++ v) :
    ∀ x ∈ v, x ∈ w := by
  obtain ⟨pre, rfl⟩ := h
  intro x hx
  exact List.mem_append_right pre hx

theorem rel_mem_entryRels (fs : FS) (repository : FPath) (root rel : FPath)
    (ls : List Name) (hrel : relative_to repository root = some rel)
    (hr : read_lines fs root = some ls) : rel ∈ entryRels fs repository := by
  unfold read_lines at hr
  cases hfind : fs.entries.find? (fun e => e.path == root) with
  | none => rw [hfind] at hr; cases hr
  | some e =>
    have hmem := List.mem_of_find?_eq_some hfind
    have hpath : e.path = root := by
      have := List.find?_some hfind
      simpa using this
    exact List.mem_filterMap.mpr ⟨e, hmem, by rw [hpath, hrel]⟩

theorem unvisited_insert_lt (fs : FS) (repository : FPath) (v : List FPath)
    (rel : FPath) (hin : rel ∈ entryRels fs repository) (hv : rel ∉ v) :
    unvisited fs repository (rel :: v) < unvisited fs repository v := by
  unfold unvisited
  rw [List.toFinset_cons, Finset.sdiff_insert]
  exact Finset.card_erase_lt_of_mem
    (Finset.mem_sdiff.mpr ⟨List.mem_toFinset.mpr hin, fun hc => hv (List.mem_toFinset.mp hc)⟩)

theorem unvisited_anti (fs : FS) (repository : FPath) (v w : List FPath)
    (h : ∀ x ∈ v, x ∈ w) :
    unvisited fs repository w ≤ unvisited fs repository v := by
  unfold unvisited
  exact Finset.card_le_card (Finset.sdiff_subset_sdiff (Finset.Subset.refl _)
    (fun x hx => List.mem_toFinset.mpr (h x (List.mem_toFinset.mp hx))))

theorem unvisited_le_entries (fs : FS) (repository : FPath) (v : List FPath) :
    unvisited fs repository v ≤ fs.entries.length := by
  unfold unvisited
  calc ((entryRels fs repository).toFinset \ v.toFinset).card
      ≤ (entryRels fs repository).toFinset.card :=
        Finset.card_le_card (Finset.sdiff_subset)
    _ ≤ (entryRels fs repository).length := List.toFinset_card_le _
    _ ≤ fs.entries.length := List.length_filterMap_le _ _

theorem collect_ne_fuelOut (fs : FS) (repository : FPath) :
    ∀ fuel v root, unvisited fs repository v + 1 ≤ fuel →
      collect_source_files fs repository fuel v root ≠ .error .fuelOut := by
  intro fuel
  induction fuel with
  | zero => intro v root hle; omega
  | succ fuel ih =>
    intro v root hle
    cases hrel : relative_to repository root with
    | none =>
      rw [collect_step_relFail fs repository fuel v root hrel]
      simp
    | some rel =>
      by_cases hv : rel ∈ v
      · rw [collect_step_visited fs repository fuel v root rel hrel hv]
        simp
      · cases hr : read_lines fs root with
        | none =>
          rw [collect_step_unreadable fs repository fuel v root rel hrel hv hr]
          simp
        | some ls =>
          rw [collect_step_go fs repository fuel v root rel ls hrel hv hr]
          intro h
          have hPinit : unvisited fs repository (rel :: v) + 1 ≤ fuel := by
            have h1 := unvisited_insert_lt fs repository v rel
              (rel_mem_entryRels fs repository root rel ls hrel hr) hv
            omega
          obtain ⟨v2, p, hP2, _, hcall⟩ :=
            exceptFold_error_src (fun v2 => unvisited fs repository v2 + 1 ≤ fuel) _
              (fun a b c hP hc =>
                le_trans (by
                  have := unvisited_anti fs repository a c
                    (mem_of_grows (collect_grows fs repository fuel a b c hc))
                  omega) hP)
              _ _ _ hPinit h
          exact ih v2 p hP2 hcall

theorem collect_error_src (fs : FS) (repository : FPath) :
    ∀ fuel v root e, collect_source_files fs repository fuel v root = .error e →
      e = .fuelOut ∨ e = .relPathFailed ∨
        ∃ p, e = .openFailed p ∧ read_lines fs p = none := by
  intro fuel
  induction fuel with
  | zero =>
    intro v root e h
    simp only [collect_source_files] at h
    exact Or.inl (Except.error.inj h).symm
  | succ fuel ih =>
    intro v root e h
    cases hrel : relative_to repository root with
    | none =>
      rw [collect_step_relFail fs repository fuel v root hrel] at h
      exact Or.inr (Or.inl (Except.error.inj h).symm)
    | some rel =>
      by_cases hv : rel ∈ v
      · rw [collect_step_visited fs repository fuel v root rel hrel hv] at h
        cases h
      · cases hr : read_lines fs root with
        | none =>
          rw [collect_step_unreadable fs repository fuel v root rel hrel hv hr] at h
          exact Or.inr (Or.inr ⟨root, (Except.error.inj h).symm, hr⟩)
        | some ls =>
          rw [collect_step_go fs repository fuel v root rel ls hrel hv hr] at h
          obtain ⟨v2, p, _, _, hcall⟩ :=
            exceptFold_error_src (fun _ => True) _ (fun _ _ _ _ _ => trivial)
              _ _ _ trivial h
          exact ih v2 p e hcall

theorem run_grows (fs : FS) (repository : FPath) (program_name : Name) (fuel : Nat) :
    ∀ mks v w, run_makefiles fs repository program_name fuel mks v = some (.ok w) →
      ∃ pre, w = pre ++ v := by
  intro mks
  induction mks with
  | nil =>
    intro v w h
    simp only [run_makefiles] at h
    exact ⟨[], by simpa using (Except.ok.inj (Option.some.inj h)).symm⟩
  | cons mk mks ih =>
    intro v w h
    simp only [run_makefiles] at h
    cases hx : get_source_files_from_makefile fs repository mk program_name with
    | none => simp only [hx] at h; exact Option.noConfusion h
    | some seeds =>
      simp only [hx] at h
      cases hfold : exceptFold
          (fun a b => collect_source_files fs repository fuel a b) v seeds with
      | error e => simp only [hfold] at h; exact Except.noConfusion (Option.some.inj h)
      | ok v1 =>
        simp only [hfold] at h
        obtain ⟨pre1, rfl⟩ := exceptFold_ok_grows _
          (fun a b c => collect_grows fs repository fuel a b c) _ _ _ hfold
        obtain ⟨pre2, rfl⟩ := ih _ _ h
        exact ⟨pre2 ++ pre1, by simp⟩

theorem run_nodup (fs : FS) (repository : FPath) (program_name : Name) (fuel : Nat) :
    ∀ mks v w, v.Nodup →
      run_makefiles fs repository program_name fuel mks v = some (.ok w) → w.Nodup := by
  intro mks
  induction mks with
  | nil =>
    intro v w hnd h
    simp only [run_makefiles] at h
    exact (Except.ok.inj (Option.some.inj h)) ▸ hnd
  | cons mk mks ih =>
    intro v w hnd h
    simp only [run_makefiles] at h
    cases hx : get_source_files_from_makefile fs repository mk program_name with
    | none => simp only [hx] at h; exact Option.noConfusion h
    | some seeds =>
      simp only [hx] at h
      cases hfold : exceptFold
          (fun a b => collect_source_files fs repository fuel a b) v seeds with
      | error e => simp only [hfold] at h; exact Except.noConfusion (Option.some.inj h)
      | ok v1 =>
        simp only [hfold] at h
        exact ih v1 w
          (exceptFold_ok_pres List.Nodup _
            (fun a b c hP hc => collect_nodup fs repository fuel a b c hP hc)
            _ _ _ hnd hfold) h

theorem run_error_src (fs : FS) (repository : FPath) (program_name : Name) (fuel : Nat) :
    ∀ mks v e, unvisited fs repository v + 1 ≤ fuel →
      run_makefiles fs repository program_name fuel mks v = some (.error e) →
      e = .relPathFailed ∨ ∃ p, e = .openFailed p ∧ read_lines fs p = none := by
  intro mks
  induction mks with
  | nil =>
    intro v e _ h
    simp only [run_makefiles] at h
    exact Except.noConfusion (Option.some.inj h)
  | cons mk mks ih =>
    intro v e hle h
    simp only [run_makefiles] at h
    cases hx : get_source_files_from_makefile fs repository mk program_name with
    | none => simp only [hx] at h; exact Option.noConfusion h
    | some seeds =>
      simp only [hx] at h
      cases hfold : exceptFold
          (fun a b => collect_source_files fs repository fuel a b) v seeds with
      | error e1 =>
        simp only [hfold] at h
        have he : e1 = e := Except.error.inj (Option.some.inj h)
        subst he
        obtain ⟨v2, p, hP2, _, hcall⟩ :=
          exceptFold_error_src (fun v2 => unvisited fs repository v2 + 1 ≤ fuel) _
            (fun a b c hP hc =>
              le_trans (by
                have := unvisited_anti fs repository a c
                  (mem_of_grows (collect_grows fs repository fuel a b c hc))
                omega) hP)
            _ _ _ hle hfold
        rcases collect_error_src fs repository fuel v2 p e1 hcall with hfo | hrest
        · exact absurd (hfo ▸ hcall) (collect_ne_fuelOut fs repository fuel v2 p hP2)
        · exact hrest
      | ok v1 =>
        simp only [hfold] at h
        have hgrow := exceptFold_ok_grows _
          (fun a b c => collect_grows fs repository fuel a b c) _ _ _ hfold
        refine ih v1 e ?_ h
        have := unvisited_anti fs repository v v1 (mem_of_grows hgrow)
        omega

theorem option_mapM_isSome {α β : Type} (f : α → Option β) :
    ∀ l : List α, (∀ a ∈ l, f a ≠ none) → ∃ bs, l.mapM f = some bs := by
  intro l
  induction l with
  | nil => intro _; exact ⟨[], rfl⟩
  | cons a l ih =>
    intro h
    cases hfa : f a with
    | none => exact absurd hfa (h a (List.mem_cons_self a l))
    | some b =>
      obtain ⟨bs, hbs⟩ := ih (fun x hx => h x (List.mem_cons_of_mem a hx))
      refine ⟨b :: bs, ?_⟩
      rw [List.mapM_cons, hfa, hbs]
      rfl

theorem occJoined : ∀ pos, pos ≤ lineJoined.length →
    beginsWith (cs "_SOURCES") (lineJoined.drop pos) = true → pos = (cs "foo").length := by
  decide

theorem occSingle : ∀ pos, pos ≤ lineSingle.length →
    beginsWith (cs "_SOURCES") (lineSingle.drop pos) = true → pos = (cs "foo").length := by
  decide

theorem keyOcc (S L pre0 R : Name) (hL : L = pre0 ++ S ++ R)
    (hocc : ∀ pos, pos ≤ L.length → beginsWith S (L.drop pos) = true → pos = pre0.length) :
    ∀ p : Name, containsSeq (p ++ S) L = true ↔ ∃ q, q ++ p = pre0 := by
  intro p
  rw [containsSeq_iff]
  constructor
  · rintro ⟨u, v, huv⟩
    have h2 : L = (u ++ p) ++ (S ++ v) := by rw [huv]; simp
    have hbw : beginsWith S (L.drop (u ++ p).length) = true := by
      rw [h2, List.drop_left]; exact beginsWith_append _ _
    have hlen : (u ++ p).length ≤ L.length := by
      have hll : L.length = (u ++ p).length + (S ++ v).length := by
        rw [h2, List.length_append]
      omega
    have hpos := hocc _ hlen hbw
    have htake : L.take (u ++ p).length = u ++ p := by rw [h2]; exact List.take_left _ _
    have htake2 : L.take pre0.length = pre0 := by
      rw [hL, List.append_assoc]; exact List.take_left _ _
    refine ⟨u, ?_⟩
    rw [← htake, hpos, htake2]
  · rintro ⟨q, hq⟩
    refine ⟨q, R, ?_⟩
    rw [hL, ← hq]
    simp

theorem key_eq (p : Name) :
    containsSeq (p ++ cs "_SOURCES") lineJoined =
      containsSeq (p ++ cs "_SOURCES") lineSingle := by
  rw [Bool.eq_iff_iff]
  rw [keyOcc (cs "_SOURCES") lineJoined (cs "foo") (cs " = a.c     b.c c.c")
    (by decide) occJoined p]
  rw [keyOcc (cs "_SOURCES") lineSingle (cs "foo") (cs " = a.c b.c c.c")
    (by decide) occSingle p]

theorem drainErrs_eq : ∀ n, drainErrs n = .error .fuelOut := by
  intro n
  induction n with
  | zero => rfl
  | succ n ih => exact ih

theorem exceptFold_congr (f g : List FPath → FPath → Except WalkErr (List FPath))
    (h : ∀ v p, f v p = g v p) :
    ∀ l v, exceptFold f v l = exceptFold g v l := by
  intro l
  induction l with
  | nil => intro v; rfl
  | cons p ps ih =>
    intro v
    simp only [exceptFold, h v p]
    cases hg : g v p with
    | error e => rfl
    | ok w => exact ih w

theorem collect_u_agrees (fs : FS) (repository : FPath)
    (hnd : ∀ e ∈ fs.entries, ¬(e.isDir = true ∧ e.readable = true)) :
    ∀ fuel v root, collect_source_files_u fs repository fuel v root =
      collect_source_files fs repository fuel v root := by
  intro fuel
  induction fuel with
  | zero => intro v root; rfl
  | succ fuel ih =>
    intro v root
    cases hrel : relative_to repository root with
    | none =>
      rw [collect_step_relFail fs repository fuel v root hrel]
      simp only [collect_source_files_u, hrel]
    | some rel =>
      by_cases hv : rel ∈ v
      · rw [collect_step_visited fs repository fuel v root rel hrel hv]
        simp only [collect_source_files_u, hrel, if_pos hv]
      · cases hfind : fs.entries.find? (fun e => e.path == root) with
        | none =>
          have hr : read_lines fs root = none := by
            simp only [read_lines, hfind]
          rw [collect_step_unreadable fs repository fuel v root rel hrel hv hr]
          simp only [collect_source_files_u, hrel, if_neg hv, hfind]
        | some e =>
          cases hread : e.readable with
          | false =>
            have hr : read_lines fs root = none := by
              simp only [read_lines, hfind, hread]
              simp
            rw [collect_step_unreadable fs repository fuel v root rel hrel hv hr]
            simp only [collect_source_files_u, hrel, if_neg hv, hfind, hread]
            simp
          | true =>
            have hdirf : e.isDir = false := by
              have hne := hnd e (List.mem_of_find?_eq_some hfind)
              cases hd : e.isDir with
              | false => rfl
              | true => exact absurd ⟨hd, hread⟩ hne
            have hr : read_lines fs root = some e.lines := by
              simp only [read_lines, hfind, hread, hdirf]
              simp
            rw [collect_step_go fs repository fuel v root rel e.lines hrel hv hr]
            simp only [collect_source_files_u, hrel, if_neg hv, hfind, hread, hdirf]
            simp only [if_true, Bool.false_eq_true, if_false]
            exact exceptFold_congr _ _ (fun a b => ih a b) _ _

/-- C1: for a repository whose root `Makefile.am` contains
`diff_SOURCES = diff.c util.c`, with `diff.c` including `util.h` and
`util.c`, `util.h` having no includes, `get_c_source_files("diff", root)`
returns exactly the relative-path set {diff.c, util.c, util.h};
`util.h` enters only through `diff.c`'s include. -/
theorem claim_C1 :
    get_c_source_files fsC1 (cs "diff") [cs "r"] =
      some (.ok [[cs "util.c"], [cs "util.h"], [cs "diff.c"]]) ∧
    List.Perm [[cs "util.c"], [cs "util.h"], [cs "diff.c"]]
      [[cs "diff.c"], [cs "util.c"], [cs "util.h"]] :=
  ⟨by decide, by decide⟩

/-- C4: because logical lines are selected by substring containment of
`<program_name>_SOURCES`, a fragment line `cmp_diff_SOURCES = other.c`
also matches program name `diff`, so resolving `diff` additionally
returns `other.c`. -/
theorem claim_C4 :
    containsSeq (cs "diff" ++ cs "_SOURCES") (cs "cmp_diff_SOURCES = other.c") = true ∧
    get_c_source_files fsC4 (cs "diff") [cs "r"] =
      some (.ok [[cs "other.c"], [cs "diff.c"]]) ∧
    [cs "other.c"] ∈ [[cs "other.c"], [cs "diff.c"]] :=
  ⟨by decide, by decide, by decide⟩

/-- C5: for every repository and program name, extracting sources from
the two physical lines `foo_SOURCES = a.c \` and `    b.c c.c` yields
the same candidate token list, and hence the same resolved paths, as
extracting from the single line `foo_SOURCES = a.c b.c c.c`. -/
theorem claim_C5 : ∀ (fs : FS) (repository : FPath) (program_name : Name),
    source_files_from_lines fs repository program_name
      [cs "foo_SOURCES = a.c \\", cs "    b.c c.c"] =
    source_files_from_lines fs repository program_name
      [cs "foo_SOURCES = a.c b.c c.c"] ∧
    split_whitespace lineJoined = split_whitespace lineSingle := by
  intro fs repository program_name
  refine ⟨?_, by decide⟩
  have hn1 : normalize_makefile [cs "foo_SOURCES = a.c \\", cs "    b.c c.c"] =
      [lineJoined] := by decide
  have hn2 : normalize_makefile [cs "foo_SOURCES = a.c b.c c.c"] = [lineSingle] := by
    decide
  simp only [source_files_from_lines, hn1, hn2, List.filter_cons, List.filter_nil]
  rw [key_eq program_name]
  by_cases hc : containsSeq (program_name ++ cs "_SOURCES") lineSingle = true
  · rw [if_pos hc, if_pos hc]
    simp only [List.mapM_cons, List.mapM_nil]
    rw [show get_paths_from_line lineJoined repository fs =
        get_paths_from_line lineSingle repository fs from by
      simp only [get_paths_from_line]
      rw [show split_whitespace lineJoined = split_whitespace lineSingle from by decide]]
  · rw [if_neg hc, if_neg hc]

/-- C7: an unreadable fragment yields a diagnostic and the empty list for
that fragment, and top-level resolution continues unchanged with the
remaining fragments; it never turns into an error return. -/
theorem claim_C7 (fs : FS) (repository : FPath) (program_name : Name) (fuel : Nat)
    (mk : FPath) (mks : List FPath) (visited : List FPath)
    (h : read_lines fs mk = none) :
    get_source_files_from_makefile fs repository mk program_name = some [] ∧
    run_makefiles fs repository program_name fuel (mk :: mks) visited =
      run_makefiles fs repository program_name fuel mks visited := by
  have h1 : get_source_files_from_makefile fs repository mk program_name = some [] := by
    simp only [get_source_files_from_makefile, h]
  refine ⟨h1, ?_⟩
  simp only [run_makefiles, h1, exceptFold]

/-- Witness for C7 on a concrete repository whose `Makefile.am` is
unreadable while `local.mk` is readable. -/
theorem claim_C7_witness :
    get_source_files_from_makefile fsC7w [cs "r"] [cs "r", cs "Makefile.am"] (cs "p")
      = some [] ∧
    run_makefiles fsC7w [cs "r"] (cs "p") 5
        [[cs "r", cs "Makefile.am"], [cs "r", cs "local.mk"]] [] =
      run_makefiles fsC7w [cs "r"] (cs "p") 5 [[cs "r", cs "local.mk"]] [] :=
  claim_C7 fsC7w [cs "r"] (cs "p") 5 [cs "r", cs "Makefile.am"]
    [[cs "r", cs "local.mk"]] [] (by decide)

/-- C8: the visited set only ever grows (new relative paths are prepended,
none removed) and never holds a duplicate; consequently the set returned
by `get_c_source_files` contains no duplicate relative paths. -/
theorem claim_C8 :
    (∀ (fs : FS) (repository : FPath) (fuel : Nat) (v : List FPath) (root : FPath)
        (w : List FPath), collect_source_files fs repository fuel v root = .ok w →
        (∃ pre, w = pre ++ v) ∧ (v.Nodup → w.Nodup)) ∧
    (∀ (fs : FS) (program_name : Name) (repository : FPath) (res : List FPath),
        get_c_source_files fs program_name repository = some (.ok res) → res.Nodup) := by
  constructor
  · intro fs repository fuel v root w h
    exact ⟨collect_grows fs repository fuel v root w h,
      fun hnd => collect_nodup fs repository fuel v root w hnd h⟩
  · intro fs program_name repository res h
    exact run_nodup fs repository program_name (defaultFuel fs) _ [] res List.nodup_nil h

/-- Witness for C8 at a concrete walk step and a concrete resolution. -/
theorem claim_C8_witness :
    ((∃ pre, [[cs "util.c"]] = pre ++ ([] : List FPath)) ∧
      (([] : List FPath).Nodup → [[cs "util.c"]].Nodup)) ∧
    ([[cs "util.c"], [cs "util.h"], [cs "diff.c"]] : List FPath).Nodup :=
  ⟨claim_C8.1 fsC1 [cs "r"] 1 [] [cs "r", cs "util.c"] [[cs "util.c"]] (by decide),
   claim_C8.2 fsC1 (cs "diff") [cs "r"] _ (by decide)⟩

/-- C6: a failing relative-path computation or an unopenable file makes
`collect_source_files` return an error that propagates out of
`get_c_source_files` and aborts the resolution; and, apart from the panic
modelled by the outer `none`, these are the only error conditions of
`get_c_source_files`. -/
theorem claim_C6 :
    (∀ (fs : FS) (repository : FPath) (fuel : Nat) (v : List FPath) (root : FPath),
        relative_to repository root = none →
        collect_source_files fs repository (fuel + 1) v root = .error .relPathFailed) ∧
    (∀ (fs : FS) (repository : FPath) (fuel : Nat) (v : List FPath) (root rel : FPath),
        relative_to repository root = some rel → rel ∉ v → read_lines fs root = none →
        collect_source_files fs repository (fuel + 1) v root =
          .error (.openFailed root)) ∧
    (∀ (fs : FS) (program_name : Name) (repository : FPath) (e : WalkErr),
        get_c_source_files fs program_name repository = some (.error e) →
        e = .relPathFailed ∨ ∃ p, e = .openFailed p ∧ read_lines fs p = none) := by
  refine ⟨fun fs r fuel v root h => collect_step_relFail fs r fuel v root h,
    fun fs r fuel v root rel h hv hr => collect_step_unreadable fs r fuel v root rel h hv hr,
    ?_⟩
  intro fs program_name repository e h
  refine run_error_src fs repository program_name (defaultFuel fs) _ [] e ?_ h
  have hb := unvisited_le_entries fs repository []
  simp only [defaultFuel]
  omega

/-- Witness for C6: a path outside the root fails structurally; the
declared but unreadable seed `bad.c` aborts the whole resolution. -/
theorem claim_C6_witness :
    collect_source_files fsC6w [cs "r"] 1 [] [cs "q"] = .error .relPathFailed ∧
    collect_source_files fsC6w [cs "r"] 1 [] [cs "r", cs "bad.c"] =
      .error (.openFailed [cs "r", cs "bad.c"]) ∧
    (WalkErr.openFailed [cs "r", cs "bad.c"] = .relPathFailed ∨
      ∃ p, WalkErr.openFailed [cs "r", cs "bad.c"] = .openFailed p ∧
        read_lines fsC6w p = none) :=
  ⟨claim_C6.1 fsC6w [cs "r"] 0 [] [cs "q"] (by decide),
   claim_C6.2.1 fsC6w [cs "r"] 0 [] [cs "r", cs "bad.c"] [cs "bad.c"]
     (by decide) (by decide) (by decide),
   claim_C6.2.2 fsC6w (cs "p") [cs "r"] (.openFailed [cs "r", cs "bad.c"]) (by decide)⟩

/-- C2: for every repository in which file `A`'s quoted includes resolve
exactly to file `B` and `B`'s resolve back to `A`, the closure walk
seeded at `A` terminates (any fuel of at least 3 suffices and is never
consumed further) and the visited set afterwards holds exactly the
relative paths of `A` and `B`. -/
theorem claim_C2 (fs : FS) (repository : FPath) (A B rA rB : FPath) (nA nB : Name)
    (lsA lsB : List Name)
    (hsA : relative_to repository A = some rA)
    (hsB : relative_to repository B = some rB)
    (hne : rA ≠ rB)
    (hrA : read_lines fs A = some lsA)
    (hrB : read_lines fs B = some lsB)
    (hiA : lsA.filterMap extractInclude = [nB])
    (hfB : find_file nB repository fs = [B])
    (hiB : lsB.filterMap extractInclude = [nA])
    (hfA : find_file nA repository fs = [A]) :
    ∀ fuel, 3 ≤ fuel →
      collect_source_files fs repository fuel [] A = .ok [rB, rA] := by
  intro fuel hf
  obtain ⟨f, rfl⟩ : ∃ f, fuel = f + 3 := ⟨fuel - 3, by omega⟩
  have e3 : f + 3 = (f + 2) + 1 := by omega
  have e2 : f + 2 = (f + 1) + 1 := by omega
  have hpend1 : (lsA.filterMap extractInclude).flatMap
      (fun n => find_file n repository fs) = [B] := by
    rw [hiA]; simp [hfB]
  have hpend2 : (lsB.filterMap extractInclude).flatMap
      (fun n => find_file n repository fs) = [A] := by
    rw [hiB]; simp [hfA]
  rw [e3, collect_step_go fs repository (f + 2) [] A rA lsA hsA (List.not_mem_nil rA) hrA,
    hpend1]
  simp only [exceptFold]
  rw [e2, collect_step_go fs repository (f + 1) [rA] B rB lsB hsB
    (fun hmem => hne (List.eq_of_mem_singleton hmem).symm) hrB, hpend2]
  simp only [exceptFold]
  rw [collect_step_visited fs repository f [rB, rA] A rA hsA (by simp)]

/-- Witness for C2 on the concrete two-file cycle `a.c` ↔ `b.h`. -/
theorem claim_C2_witness :
    collect_source_files fsC2w [cs "r"] 3 [] [cs "r", cs "a.c"] =
      .ok [[cs "b.h"], [cs "a.c"]] :=
  claim_C2 fsC2w [cs "r"] [cs "r", cs "a.c"] [cs "r", cs "b.h"]
    [cs "a.c"] [cs "b.h"] (cs "a.c") (cs "b.h")
    [cs "#include \"b.h\""] [cs "#include \"a.c\""]
    (by decide) (by decide) (by decide) (by decide) (by decide) (by decide)
    (by decide) (by decide) (by decide) 3 (by decide)

/-- C3 (amended): the extractor returns a diagnostic and the empty list
for an unreadable fragment, and it completes without a fatal error
whenever every candidate token after the first two tokens of a matching
logical line has a computable base name; however, a token whose base-name
component is empty (such as `.` or `..`) makes the base-name computation
fail and the process panic (see the counterexample). -/
theorem claim_C3 (fs : FS) (repository : FPath) (makefile_path : FPath)
    (program_name : Name) :
    (read_lines fs makefile_path = none →
      get_source_files_from_makefile fs repository makefile_path program_name
        = some []) ∧
    (∀ ls, read_lines fs makefile_path = some ls →
      (∀ line ∈ (normalize_makefile ls).filter
          (fun l => containsSeq (program_name ++ cs "_SOURCES") l),
        ∀ tok ∈ (split_whitespace line).drop 2, path_to_file_name tok ≠ none) →
      ∃ out, get_source_files_from_makefile fs repository makefile_path program_name
        = some out) := by
  constructor
  · intro h
    simp only [get_source_files_from_makefile, h]
  · intro ls hls htok
    have hmapInner : ∀ line ∈ (normalize_makefile ls).filter
        (fun l => containsSeq (program_name ++ cs "_SOURCES") l),
        get_paths_from_line line repository fs ≠ none := by
      intro line hm
      simp only [get_paths_from_line]
      obtain ⟨names, hn⟩ := option_mapM_isSome path_to_file_name _ (htok line hm)
      rw [hn]
      simp
    obtain ⟨outs, houts⟩ := option_mapM_isSome
      (fun line => get_paths_from_line line repository fs) _ hmapInner
    refine ⟨outs.flatten, ?_⟩
    simp only [get_source_files_from_makefile, hls, source_files_from_lines]
    rw [houts]
    rfl

/-- Counterexample to C3 as stated: the base-name computation fails on
the tokens `.` and `..`, and a matching line containing the token `..`
makes the extractor panic (modelled by `none`) instead of completing. -/
theorem claim_C3_counterexample :
    path_to_file_name (cs ".") = none ∧ path_to_file_name (cs "..") = none ∧
    get_source_files_from_makefile fsC3 [cs "r"] [cs "r", cs "Makefile.am"] (cs "foo")
      = none :=
  ⟨by decide, by decide, by decide⟩

/-- Witness for C3 (amended) at an absent fragment and at the scenario
fragment, whose tokens all have base names. -/
theorem claim_C3_witness :
    get_source_files_from_makefile fsC1 [cs "r"] [cs "z"] (cs "diff") = some [] ∧
    ∃ out, get_source_files_from_makefile fsC1 [cs "r"] [cs "r", cs "Makefile.am"]
      (cs "diff") = some out :=
  ⟨(claim_C3 fsC1 [cs "r"] [cs "z"] (cs "diff")).1 (by decide),
   (claim_C3 fsC1 [cs "r"] [cs "r", cs "Makefile.am"] (cs "diff")).2
     [cs "diff_SOURCES = diff.c util.c"] (by decide) (by decide)⟩

/-- C9: an include reference is extracted from a line exactly when the
line is literally `#include "` followed by the reference and a final `"`;
leading whitespace, whitespace between `#` and `include`, and trailing
characters (including whitespace after the closing quote) all make the
line be silently ignored. -/
theorem claim_C9 :
    (∀ (l n : Name), extractInclude l = some n ↔
      l = cs "#include \"" ++ (n ++ ['"'])) ∧
    (∀ (c : Char) (l : Name), isWs c = true → extractInclude (c :: l) = none) ∧
    (∀ l : Name, extractInclude ('#' :: ' ' :: l) = none) ∧
    (∀ (l : Name) (c : Char), c ≠ '"' → extractInclude (l ++ [c]) = none) := by
  refine ⟨?_, ?_, ?_, ?_⟩
  · intro l n
    constructor
    · intro h
      simp only [extractInclude] at h
      by_cases hw : beginsWith (cs "#include \"") l = true
      · rw [if_pos hw] at h
        obtain ⟨t, rfl⟩ := (beginsWith_iff _ _).mp hw
        rw [List.drop_left] at h
        by_cases hl : t.getLast? = some '"'
        · rw [if_pos hl] at h
          have hn := Option.some.inj h
          have ht : t ≠ [] := by
            intro he
            rw [he] at hl
            exact Option.noConfusion hl
          have hg : t.getLast ht = '"' := by
            have hgl := List.getLast?_eq_getLast t ht
            rw [hgl] at hl
            exact Option.some.inj hl
          have hsp : t = t.dropLast ++ ['"'] := by
            rw [← hg]
            exact (List.dropLast_concat_getLast ht).symm
          rw [← hn]
          exact congrArg (fun x => cs "#include \"" ++ x) hsp
        · rw [if_neg hl] at h
          exact Option.noConfusion h
      · rw [if_neg hw] at h
        exact Option.noConfusion h
    · intro h
      subst h
      have hw : beginsWith (cs "#include \"")
          (cs "#include \"" ++ (n ++ ['"'])) = true := beginsWith_append _ _
      simp only [extractInclude]
      rw [if_pos hw, List.drop_left, List.getLast?_concat, if_pos rfl,
        List.dropLast_concat]
  · intro c l hcw
    have hne : ¬('#' = c) := by
      intro he
      rw [← he] at hcw
      exact absurd hcw (by decide)
    have htag : cs "#include \"" = '#' :: cs "include \"" := by decide
    simp only [extractInclude, htag, beginsWith]
    rw [if_neg hne]
    simp
  · intro l
    have htag : cs "#include \"" = '#' :: 'i' :: cs "nclude \"" := by decide
    simp only [extractInclude, htag, beginsWith]
    rw [if_neg (by decide : ¬('i' = ' '))]
    simp
  · intro l c hc
    simp only [extractInclude]
    by_cases hw : beginsWith (cs "#include \"") (l ++ [c]) = true
    · rw [if_pos hw]
      obtain ⟨t, ht⟩ := (beginsWith_iff _ _).mp hw
      rw [ht, List.drop_left]
      cases hte : t.getLast? with
      | none => simp
      | some d =>
        have hcd : d = c := by
          have h1 : (l ++ [c]).getLast? = some c := List.getLast?_concat l
          rw [ht, List.getLast?_append, hte, Option.or_some] at h1
          exact Option.some.inj h1
        rw [if_neg (fun hx => absurd (hcd.symm.trans (Option.some.inj hx)) hc)]
    · rw [if_neg hw]

/-- Witness for C9 on concrete lines: the exact form is extracted, while
a leading space, a space after `#`, and a trailing space are ignored. -/
theorem claim_C9_witness :
    extractInclude (cs "#include \"util.h\"") = some (cs "util.h") ∧
    extractInclude (cs " #include \"util.h\"") = none ∧
    extractInclude (cs "# include \"util.h\"") = none ∧
    extractInclude (cs "#include \"util.h\" ") = none := by
  refine ⟨(claim_C9.1 _ (cs "util.h")).mpr (by decide), ?_, ?_, ?_⟩
  · rw [show cs " #include \"util.h\"" = ' ' :: cs "#include \"util.h\"" from by decide]
    exact claim_C9.2.1 ' ' (cs "#include \"util.h\"") (by decide)
  · rw [show cs "# include \"util.h\"" = '#' :: ' ' :: cs "include \"util.h\"" from by
      decide]
    exact claim_C9.2.2.1 (cs "include \"util.h\"")
  · rw [show cs "#include \"util.h\" " = cs "#include \"util.h\"" ++ [' '] from by decide]
    exact claim_C9.2.2.2 (cs "#include \"util.h\"") ' ' (by decide)

/-- Counterexample to C10 as stated: the include target `util.h` names a
directory, `find_file` returns that directory to the walker, but under
the Unix-faithful semantics resolving it does not return the claimed
error — even the fuel bound that provably suffices for every terminating
walk is exhausted by the endless discarded-error read loop. -/
theorem claim_C10_counterexample :
    [cs "r", cs "util.h"] ∈ find_file (cs "util.h") [cs "r"] fsC10w ∧
    collect_source_files_u fsC10w [cs "r"] (defaultFuel fsC10w) []
      [cs "r", cs "util.h"] = .error .fuelOut ∧
    ¬ collect_source_files_u fsC10w [cs "r"] (defaultFuel fsC10w) []
      [cs "r", cs "util.h"] = .error (.openFailed [cs "r", cs "util.h"]) :=
  ⟨by decide, by decide, by decide⟩

/-- C10 (amended): `find_file` returns every directory-tree entry whose
final name component equals the target name, directories included;
consequently, for an include target naming a readable directory, the
closure walker recurses into that directory path and attempts to read it
as a file — on Unix the open succeeds and the loop then discards an
endless stream of read errors, so resolution of that file diverges (it
exhausts every fuel bound) instead of completing or returning an error. -/
theorem claim_C10 :
    (∀ (fs : FS) (repository : FPath) (e : FSEntry) (n : Name),
        e ∈ fs.entries → beginsWith repository e.path = true →
        e.path.getLast? = some n → e.path ∈ find_file n repository fs) ∧
    (∀ (fs : FS) (repository : FPath) (v : List FPath) (e : FSEntry) (rel : FPath),
        fs.entries.find? (fun x => x.path == e.path) = some e → e.isDir = true →
        e.readable = true → relative_to repository e.path = some rel → rel ∉ v →
        ∀ fuel, collect_source_files_u fs repository fuel v e.path =
          .error .fuelOut) := by
  constructor
  · intro fs repository e n hmem hpre hlast
    simp only [find_file, List.mem_map]
    refine ⟨e, List.mem_filter.mpr ⟨hmem, ?_⟩, rfl⟩
    rw [Bool.and_eq_true]
    exact ⟨hpre, by rw [hlast]; exact beq_self_eq_true _⟩
  · intro fs repository v e rel hfind hdir hread hrel hv fuel
    cases fuel with
    | zero => rfl
    | succ fuel =>
      simp only [collect_source_files_u, hrel, if_neg hv, hfind, hread, hdir, if_true]
      exact drainErrs_eq fuel

/-- Witness for C10 (amended) on a repository holding a readable
directory named `util.h`: the directory is located by `find_file`, and
walking it at the concrete fuel 5 already exhausts the fuel. -/
theorem claim_C10_witness :
    [cs "r", cs "util.h"] ∈ find_file (cs "util.h") [cs "r"] fsC10w ∧
    collect_source_files_u fsC10w [cs "r"] 5 [] [cs "r", cs "util.h"] =
      .error .fuelOut :=
  ⟨claim_C10.1 fsC10w [cs "r"] ⟨[cs "r", cs "util.h"], true, true, []⟩ (cs "util.h")
      (by decide) (by decide) (by decide),
   claim_C10.2 fsC10w [cs "r"] [] ⟨[cs "r", cs "util.h"], true, true, []⟩
      [cs "util.h"] (by decide) rfl rfl (by decide) (by decide) 5⟩

end Resolver
